import Mathlib

/-!
Verification of the FASTA index / random-access reader (`src/src/Fasta.cpp`).

The development shallowly embeds the C++ source:

* a source file is a `List Char` (its raw bytes; line terminators are the
  single byte `'\n'`, as the program assumes);
* `std::getline` decomposition is `splitLines`;
* the index (`class FastaIndex : public map<string, FastaIndexEntry>`) is an
  association list with unique keys; `std::map::insert`, which does *not*
  overwrite an existing key, is `mapInsert`;
* `FastaIndex::indexReference` is `indexLines` / `indexReference`;
* `FastaIndex::readIndexFile` is `readIndexLines` / `readIndexFile`, with the
  `exit(1)` on a malformed line and the uncaught `boost::bad_lexical_cast`
  modelled as `Except.error`;
* `operator<<(ostream, FastaIndex)` plus `writeIndexFile` is
  `writeIndexLines` / `writeIndexFile`;
* `FastaReference::getSequence` / `getSubSequence` are `getSequence` /
  `getSubSequence`; `fseek`/`fread` become `readBytes`, C++ `int` division
  (truncation toward zero) becomes `Int.tdiv`, with the zero divisor —
  undefined behaviour in C++ — mapped to the distinguished outcome
  `CppError.divByZero`;
* dereferencing the result of a failed `map::find` (`entry(name)` on an
  absent name) is undefined behaviour; it is modelled by the distinguished
  outcome `CppError.lookupUB`.

Machine integers (`int`, `long long`) are modelled as `Int`; no claim under
consideration involves overflow.
-/

abbrev Chars := List Char

/-- One record of the fasta index (`FastaIndexEntry` in the source): the
sequence name, the total base count, the byte offset of the first base, the
bases per full line, and the bytes per full line including the terminator. -/
structure FastaIndexEntry where
  name : Chars
  length : Int
  offset : Int
  line_blen : Int
  line_len : Int
deriving DecidableEq, Repr

/-- `FastaIndexEntry::clear()`: empty name, zero length (`NULL` is `0`),
sentinel offset `-1`, zero line metrics. -/
def clearEntry : FastaIndexEntry := ⟨[], 0, -1, 0, 0⟩

/-- Outcomes of the modelled operations.  `invalidArgument`, `formatError`
and `castError` model `exit(1)` / an uncaught exception; `divByZero` and
`lookupUB` model undefined behaviour of the C++ source (division by zero,
and dereferencing the `end()` iterator returned by a failed `map::find`). -/
inductive CppError where
  | invalidArgument
  | divByZero
  | lookupUB
  | formatError (linenum : Nat)
  | castError
deriving DecidableEq, Repr

deriving instance DecidableEq for Except

/-- The index: `map<string, FastaIndexEntry>` as an association list whose
keys are unique (an invariant maintained by `mapInsert`). -/
abbrev FastaIndex := List (Chars × FastaIndexEntry)

/-- `std::map::find`, returning the mapped value of the matching key. -/
def mapFind? : FastaIndex → Chars → Option FastaIndexEntry
  | [], _ => none
  | (k', e) :: rest, k => if k' = k then some e else mapFind? rest k

/-- `std::map::insert(pair(k, e))`: a no-op when the key is already present
(`insert` does not overwrite), otherwise the new binding is added. -/
def mapInsert (m : FastaIndex) (k : Chars) (e : FastaIndexEntry) : FastaIndex :=
  match mapFind? m k with
  | some _ => m
  | none => m ++ [(k, e)]

/-- `FastaIndex::flushEntryToIndex`: insert the buffered entry under its
name. -/
def flushEntryToIndex (m : FastaIndex) (e : FastaIndexEntry) : FastaIndex :=
  mapInsert m e.name ⟨e.name, e.length, e.offset, e.line_blen, e.line_len⟩

/-- Helper for `splitLines`; `acc` holds the reversed chars of the current
line. -/
def splitLinesAux : Chars → Chars → List Chars
  | [], acc => [acc.reverse]
  | c :: rest, acc =>
    if c = '\n' then
      match rest with
      | [] => [acc.reverse]
      | _ => acc.reverse :: splitLinesAux rest []
    else
      splitLinesAux rest (c :: acc)

/-- The `std::getline` decomposition of a file into lines: each line is the
text up to (not including) a `'\n'` or the end of the file; a terminating
final `'\n'` does not open a further empty line, and the empty file has no
lines. -/
def splitLines (f : Chars) : List Chars :=
  match f with
  | [] => []
  | _ => splitLinesAux f []

/-- `boost::split(fields, line, is_any_of("\t"))`: split on every tab,
keeping empty fields; the empty line yields one empty field. -/
def splitTabs : Chars → List Chars
  | [] => [[]]
  | c :: rest =>
    if c = '\t' then
      [] :: splitTabs rest
    else
      match splitTabs rest with
      | [] => [[c]]
      | f :: fs => (c :: f) :: fs

/-- State of the `indexReference` scan loop: the entry buffer, the running
byte offset from the start of the file, and the index built so far. -/
structure ScanState where
  entry : FastaIndexEntry
  offset : Int
  index : FastaIndex

/-- The `while (getline(refFile, line))` loop of `FastaIndex::indexReference`,
acting on the `getline` decomposition of the file.  `line[0]` on an empty
`std::string` reads the terminating `'\0'`, hence `headD '\x00'`.  The `'+'`
branch performs two further `getline` calls; when they hit the end of the
file the loop terminates and the buffered entry is flushed (a failed
`getline` leaves the entry and index untouched).  At the end of the file the
buffered entry is flushed unconditionally. -/
def indexLines : ScanState → List Chars → FastaIndex
  | st, [] => flushEntryToIndex st.index st.entry
  | st, line :: rest =>
    let c := line.headD '\x00'
    if c = ';' then
      -- fasta comment, skip
      indexLines { st with offset := st.offset + line.length + 1 } rest
    else if c = '+' then
      -- fastq quality header: read and discard two more lines
      match rest with
      | q1 :: q2 :: rest' =>
        indexLines { st with offset := st.offset + q1.length + 1 + q2.length + 1 } rest'
      | [_q1] => flushEntryToIndex st.index st.entry
      | [] => flushEntryToIndex st.index st.entry
    else if c = '>' ∨ c = '@' then
      -- header: flush the previous entry (if its name is non-empty), then
      -- start a new one named by the rest of the line
      let st1 :=
        if st.entry.name ≠ [] then
          { st with index := flushEntryToIndex st.index st.entry, entry := clearEntry }
        else st
      indexLines
        { st1 with
          entry := { st1.entry with name := line.drop 1 },
          offset := st.offset + line.length + 1 } rest
    else
      -- sequence line
      let e := st.entry
      let newLineLen : Int := if e.line_len ≠ 0 then e.line_len else (line.length : Int) + 1
      indexLines
        { st with
          entry :=
            { e with
              offset := if e.offset = -1 then st.offset else e.offset,
              length := e.length + line.length,
              line_len := newLineLen,
              line_blen := newLineLen - 1 },
          offset := st.offset + line.length + 1 } rest

/-- `FastaIndex::indexReference` on the raw bytes of the reference file. -/
def indexReference (file : Chars) : FastaIndex :=
  indexLines ⟨clearEntry, 0, []⟩ (splitLines file)

/-- Digit character of `d` (for `ostream << int`). -/
def digitChar (d : Nat) : Char := Char.ofNat (48 + d)

/-- Decimal digits of `n`, most significant first; `fuel` bounds the
recursion (any `fuel > n` gives the exact digits). -/
def printNatAux : Nat → Nat → Chars
  | 0, _ => []
  | fuel + 1, n =>
    if n < 10 then [digitChar n]
    else printNatAux fuel (n / 10) ++ [digitChar (n % 10)]

/-- Decimal notation of a natural number. -/
def printNat (n : Nat) : Chars := printNatAux (n + 1) n

/-- `ostream << i` for an `int` / `long long`. -/
def printInt (i : Int) : Chars :=
  if i < 0 then '-' :: printNat (-i).toNat else printNat i.toNat

/-- Value of a decimal digit string. -/
def decimalVal (l : Chars) : Nat :=
  l.foldl (fun acc c => acc * 10 + (c.toNat - 48)) 0

/-- Decimal value of a digit string (`boost::lexical_cast` on an unsigned
decimal numeral); `none` on the empty string or a non-digit. -/
def parseNat? (l : Chars) : Option Nat :=
  if l ≠ [] ∧ ∀ c ∈ l, c.isDigit then some (decimalVal l) else none

/-- `boost::lexical_cast<int> / <long long>` on an optionally `-`-signed
decimal numeral; `none` models the thrown `bad_lexical_cast`. -/
def parseInt? (l : Chars) : Option Int :=
  if l.head? = some '-' then (parseNat? (l.drop 1)).map (fun n : Nat => -(n : Int))
  else (parseNat? l).map (fun n : Nat => (n : Int))

/-- The loop of `FastaIndex::readIndexFile`: `k` is the (1-based) number of
the first line of the list, `acc` the entries inserted so far.  A line that
does not split on tabs into exactly 5 fields aborts the whole load
(`exit(1)`) with the offending line number; a numeric field that
`lexical_cast` rejects aborts it with `castError`. -/
def readIndexLines (k : Nat) (acc : FastaIndex) : List Chars → Except CppError FastaIndex
  | [] => .ok acc
  | line :: rest =>
    match splitTabs line with
    | [f0, f1, f2, f3, f4] =>
      match parseInt? f1, parseInt? f2, parseInt? f3, parseInt? f4 with
      | some len, some off, some bl, some ll =>
        readIndexLines (k + 1) (mapInsert acc f0 ⟨f0, len, off, bl, ll⟩) rest
      | _, _, _, _ => .error .castError
    | _ => .error (.formatError k)

/-- `FastaIndex::readIndexFile` on the raw bytes of the index file. -/
def readIndexFile (file : Chars) : Except CppError FastaIndex :=
  readIndexLines 1 [] (splitLines file)

/-- Insertion step of the `std::sort` by `fastaIndexEntryCompare`
(ascending `offset`). -/
def insertSorted (e : FastaIndexEntry) : List FastaIndexEntry → List FastaIndexEntry
  | [] => [e]
  | x :: xs => if e.offset < x.offset then e :: x :: xs else x :: insertSorted e xs

/-- The entries of the index sorted by ascending `offset`
(`sort(sortedIndex.begin(), sortedIndex.end(), fastaIndexEntryCompare)`). -/
def sortByOffset (l : List FastaIndexEntry) : List FastaIndexEntry :=
  l.foldr insertSorted []

/-- Concatenate fields with a tab between consecutive fields. -/
def joinTabs : List Chars → Chars
  | [] => []
  | f :: fs =>
    match fs with
    | [] => f
    | _ => f ++ '\t' :: joinTabs fs

/-- `operator<<(ostream, FastaIndexEntry)`: the five tab-separated fields. -/
def entryLine (e : FastaIndexEntry) : Chars :=
  joinTabs [e.name, printInt e.length, printInt e.offset,
    printInt e.line_blen, printInt e.line_len]

/-- The lines written by `operator<<(ostream, FastaIndex)`: one per entry,
sorted by ascending offset. -/
def writeIndexLines (m : FastaIndex) : List Chars :=
  (sortByOffset (m.map (·.2))).map entryLine

/-- Concatenate lines, each followed by `endl`. -/
def joinLines (ls : List Chars) : Chars :=
  ls.foldr (fun l acc => l ++ '\n' :: acc) []

/-- `FastaIndex::writeIndexFile`: the raw bytes of the written index file. -/
def writeIndexFile (m : FastaIndex) : Chars :=
  joinLines (writeIndexLines m)

/-- `fseek64` to `off` followed by `fread` of `n` bytes (a short read past
the end of the file returns the bytes that exist; a negative seek or count
reads nothing). -/
def readBytes (file : Chars) (off n : Int) : Chars :=
  if off < 0 ∨ n < 0 then [] else (file.drop off.toNat).take n.toNat

/-- `FastaReference::getSequence`: look the name up (dereferencing a failed
lookup is UB), read `entry.length` bytes from `entry.offset`, and strip the
newlines (`remove(pbegin, pend, '\n')`). -/
def getSequence (index : FastaIndex) (file : Chars) (seqname : Chars) :
    Except CppError Chars :=
  match mapFind? index seqname with
  | none => .error .lookupUB
  | some e => .ok ((readBytes file e.offset e.length).filter (fun c => c ≠ '\n'))

/-- The body of `FastaReference::getSubSequence` after the entry lookup:
reject `start < 0 ∨ length < 1`; otherwise compute
`newlines_before = start > 0 ? (start-1)/line_blen : 0` and
`newlines_by_end = (start+length-1)/line_blen` with C++ `int` division
(truncation toward zero, `Int.tdiv`), seek to
`offset + newlines_before + start`, read `length + newlines_inside` bytes
and erase all `'\n'`.  In the source the divisions by `entry.line_blen` are
unguarded; division by zero is undefined behaviour in C++, and since the
`newlines_by_end` division is always evaluated, the call divides by zero
exactly when `line_blen = 0` — the zero-divisor check is therefore hoisted
in front of the (total) `Int.tdiv` arithmetic. -/
def entrySubSequence (e : FastaIndexEntry) (file : Chars) (start length : Int) :
    Except CppError Chars :=
  if start < 0 ∨ length < 1 then .error .invalidArgument
  else if e.line_blen = 0 then .error .divByZero
  else
    let nb : Int := if 0 < start then (start - 1).tdiv e.line_blen else 0
    let ne : Int := (start + length - 1).tdiv e.line_blen
    .ok ((readBytes file (e.offset + nb + start) (length + (ne - nb))).filter
      (fun c => c ≠ '\n'))

/-- `FastaReference::getSubSequence`: entry lookup (dereferencing a failed
lookup is UB, and happens before the argument check), then the coordinate
arithmetic. -/
def getSubSequence (index : FastaIndex) (file : Chars) (seqname : Chars)
    (start length : Int) : Except CppError Chars :=
  match mapFind? index seqname with
  | none => .error .lookupUB
  | some e => entrySubSequence e file start length

/-- The concrete five-line reference file of the specification scenario. -/
def demoFile : Chars := ">seq1\nACGTACGTAC\nGTACGT\n>seq2\nTTTT\n".toList

/-- Its scanned index. -/
def demoIndex : FastaIndex := indexReference demoFile


/-- A reference file whose two records share the name `a`. -/
def dupNameFile : Chars := ">a\nAC\n>a\nGGGG\n".toList

/-- A reference file whose single record `r` has one empty sequence line, so
the scanner derives `line_blen = 0`. -/
def zeroBlenFile : Chars := ">r\n\n".toList

/-- A reference file whose record name contains a tab character. -/
def tabNameFile : Chars := ">a\tb\nAC\n".toList

/-- An index file whose first line has 5 fields but a non-numeric second
field, and whose second line has a single field. -/
def castErrorFile : Chars := "a\tx\t0\t0\t0\nz\n".toList

/-- A persisted index line that `readIndexFile` accepts: exactly 5
tab-separated fields whose four numeric fields `lexical_cast` parses. -/
def lineOk (l : Chars) : Bool :=
  match splitTabs l with
  | [_, f1, f2, f3, f4] =>
    (parseInt? f1).isSome && (parseInt? f2).isSome &&
    (parseInt? f3).isSome && (parseInt? f4).isSome
  | _ => false

/-- Fuel-bounded line wrapping; any `fuel ≥ s.length` gives the exact
wrapping. -/
def wrappedAux : Nat → Nat → Chars → Chars
  | 0, _, s => s
  | fuel + 1, W, s =>
    if W = 0 ∨ s.length ≤ W then s
    else s.take W ++ '\n' :: wrappedAux fuel W (s.drop W)

/-- The physical byte layout of a record with bases `s` wrapped at width
`W`: full lines of `W` bases each followed by a `'\n'`, and a final
(possibly shorter, unterminated) line.  This is the layout `getSubSequence`
assumes of a record inside the source file. -/
def wrapped (W : Nat) (s : Chars) : Chars := wrappedAux s.length W s

/-- The record named by `e` is laid out in `file` as the index entry
describes: nonnegative offset, wrap width `line_blen ≥ 1`, `length` equal to
the base count, newline-free bases, and the bytes at `offset` are the
wrapped layout of the bases. -/
def recordLaidOut (file : Chars) (e : FastaIndexEntry) (s : Chars) : Prop :=
  0 ≤ e.offset ∧ 1 ≤ e.line_blen ∧ e.length = (s.length : Int) ∧ '\n' ∉ s ∧
  (file.drop e.offset.toNat).take (wrapped e.line_blen.toNat s).length
    = wrapped e.line_blen.toNat s

/-- The invariant the scanner maintains of its index: every key is the
stored entry's name, the keys are pairwise distinct, and no name contains a
newline. -/
def indexInv (m : FastaIndex) : Prop :=
  ((m.map Prod.fst).Nodup ∧ ∀ p ∈ m, p.1 = p.2.name) ∧ ∀ p ∈ m, '\n' ∉ p.2.name

/-- C2: scanning the concrete five-line file yields exactly the two entries
the specification derives, and `getSubSequence("seq1", 10, 6)` and
`getSequence("seq2")` return the expected bases — but `getSequence("seq1")`
reads only `entry.length = 16` raw bytes (which include the embedded
newline), so after stripping it returns the 15 characters
`"ACGTACGTACGTACG"`, not the full 16-base `"ACGTACGTACGTACGT"` the claim
states. -/
theorem demo_scenario :
    demoIndex =
      [("seq1".toList, ⟨"seq1".toList, 16, 6, 10, 11⟩),
       ("seq2".toList, ⟨"seq2".toList, 4, 30, 4, 5⟩)] ∧
    mapFind? demoIndex "seq1".toList = some ⟨"seq1".toList, 16, 6, 10, 11⟩ ∧
    mapFind? demoIndex "seq2".toList = some ⟨"seq2".toList, 4, 30, 4, 5⟩ ∧
    getSubSequence demoIndex demoFile "seq1".toList 10 6 = .ok "GTACGT".toList ∧
    getSequence demoIndex demoFile "seq2".toList = .ok "TTTT".toList ∧
    getSequence demoIndex demoFile "seq1".toList = .ok "ACGTACGTACGTACG".toList := by
  refine ⟨by decide, by decide, by decide, by decide, by decide, by decide⟩

/-- C3: on the multi-line record `seq1` the byte span read by `getSequence`
is `entry.length` bytes alone, which under-reads by the number of embedded
newlines: the result has only 15 characters and differs from
`getSubSequence(name, 0, L)`, which reads `L` bases plus the embedded
newline and returns all 16. -/
theorem getSequence_underreads :
    getSequence demoIndex demoFile "seq1".toList = .ok "ACGTACGTACGTACG".toList ∧
    getSubSequence demoIndex demoFile "seq1".toList 0 16 = .ok "ACGTACGTACGTACGT".toList ∧
    "ACGTACGTACGTACG".toList ≠ "ACGTACGTACGTACGT".toList := by
  refine ⟨by decide, by decide, by decide⟩

/-- C6: looking up a name that is not a key of the index: `map::find`
returns `end()` and `FastaIndex::entry` dereferences it — undefined
behaviour (`lookupUB`), not an explicit `NotFound` error.  Both
`getSequence` and `getSubSequence` reach this dereference. -/
theorem entry_absent_failed_lookup :
    mapFind? demoIndex "chrX".toList = none ∧
    getSequence demoIndex demoFile "chrX".toList = .error .lookupUB ∧
    getSubSequence demoIndex demoFile "chrX".toList 0 1 = .error .lookupUB := by
  refine ⟨by decide, by decide, by decide⟩

/-- C7 counterexample: for a name absent from the index, the entry lookup
(and its undefined-behaviour dereference) happens before the
`start < 0 ∨ length < 1` check, so the call does not yield
`InvalidArgument`. -/
theorem getSubSequence_absent_name_ub :
    getSubSequence demoIndex demoFile "chrY".toList (-1) 1 = .error .lookupUB ∧
    CppError.lookupUB ≠ CppError.invalidArgument := by
  refine ⟨by decide, by decide⟩

/-- C7 (amended): for every name *present in the index* and every arguments
with `start < 0` or `length < 1`, `getSubSequence` yields `InvalidArgument`;
the result is the same constant for every file content, so no byte of the
source file is read. -/
theorem getSubSequence_invalid_args (index : FastaIndex) (file : Chars)
    (name : Chars) (start length : Int) (e : FastaIndexEntry)
    (hfind : mapFind? index name = some e) (hbad : start < 0 ∨ length < 1) :
    getSubSequence index file name start length = .error .invalidArgument := by
  simp only [getSubSequence, hfind, entrySubSequence, if_pos hbad]

theorem getSubSequence_invalid_args_witness :
    mapFind? demoIndex "seq1".toList = some ⟨"seq1".toList, 16, 6, 10, 11⟩ ∧
    ((-1 : Int) < 0 ∨ (1 : Int) < 1) ∧
    getSubSequence demoIndex demoFile "seq1".toList (-1) 1 = .error .invalidArgument :=
  ⟨by decide, Or.inl (by decide),
    getSubSequence_invalid_args demoIndex demoFile "seq1".toList (-1) 1
      ⟨"seq1".toList, 16, 6, 10, 11⟩ (by decide) (Or.inl (by decide))⟩

/-- C8 counterexample: two scanned records named `a` (lengths 2 and 4); the
index keeps the *first* record's entry, because `std::map::insert` does not
overwrite an existing key — inserting the later record is a no-op, not a
replacement. -/
theorem duplicate_name_keeps_first :
    mapFind? (indexReference dupNameFile) "a".toList = some ⟨"a".toList, 2, 3, 2, 3⟩ ∧
    mapFind? (indexReference dupNameFile) "a".toList ≠ some ⟨"a".toList, 4, 9, 4, 5⟩ := by
  refine ⟨by decide, by decide⟩

/-- C8 (amended): when a name is already a key of the mapping, inserting
under that name again — as `flushEntryToIndex` does during the scan and as
`readIndexFile` does for a persisted line — leaves the mapping unchanged:
first write wins. -/
theorem insert_duplicate_is_noop (m : FastaIndex) (k : Chars)
    (v w : FastaIndexEntry) (h : mapFind? m k = some w) :
    mapInsert m k v = m ∧ mapFind? (mapInsert m k v) k = some w := by
  have hm : mapInsert m k v = m := by unfold mapInsert; rw [h]
  exact ⟨hm, by rw [hm, h]⟩

theorem insert_duplicate_is_noop_witness :
    mapFind? [("a".toList, ⟨"a".toList, 2, 3, 2, 3⟩)] "a".toList =
      some ⟨"a".toList, 2, 3, 2, 3⟩ ∧
    mapInsert [("a".toList, ⟨"a".toList, 2, 3, 2, 3⟩)] "a".toList
        ⟨"a".toList, 4, 9, 4, 5⟩ =
      [("a".toList, ⟨"a".toList, 2, 3, 2, 3⟩)] :=
  ⟨by decide,
    (insert_duplicate_is_noop [("a".toList, ⟨"a".toList, 2, 3, 2, 3⟩)] "a".toList
      ⟨"a".toList, 4, 9, 4, 5⟩ ⟨"a".toList, 2, 3, 2, 3⟩ (by decide)).1⟩

/-- Helper for C9: with `line_blen = 0`, every `getSubSequence` call that
passes the argument check reaches a division by zero: the divisor of
`newlines_by_end` (and, when `start > 0`, of `newlines_before`) is
`entry.line_blen`, with no zero guard. -/
theorem entrySubSequence_zero_blen (e : FastaIndexEntry) (file : Chars)
    (start length : Int) (hb : e.line_blen = 0) (hs : 0 ≤ start) (hl : 1 ≤ length) :
    entrySubSequence e file start length = .error .divByZero := by
  unfold entrySubSequence
  rw [if_neg (by omega), if_pos hb]

/-- C9: the scanner derives `line_blen = 0` for a record whose first
sequence line is empty, and on such an entry every `getSubSequence` call
with `start ≥ 0` and `length ≥ 1` divides by zero (undefined behaviour). -/
theorem scanner_zero_blen_divides_by_zero :
    mapFind? (indexReference zeroBlenFile) "r".toList =
      some ⟨"r".toList, 0, 3, 0, 1⟩ ∧
    (⟨"r".toList, 0, 3, 0, 1⟩ : FastaIndexEntry).line_blen = 0 ∧
    ∀ (file : Chars) (start length : Int), 0 ≤ start → 1 ≤ length →
      getSubSequence (indexReference zeroBlenFile) file "r".toList start length =
        .error .divByZero := by
  refine ⟨by decide, by decide, ?_⟩
  intro file start length hs hl
  unfold getSubSequence
  have h : mapFind? (indexReference zeroBlenFile) "r".toList =
      some ⟨"r".toList, 0, 3, 0, 1⟩ := by decide
  rw [h]
  exact entrySubSequence_zero_blen _ _ _ _ rfl hs hl

theorem scanner_zero_blen_divides_by_zero_witness :
    (0 : Int) ≤ 0 ∧ (1 : Int) ≤ 1 ∧
    getSubSequence (indexReference zeroBlenFile) zeroBlenFile "r".toList 0 1 =
      .error .divByZero :=
  ⟨by decide, by decide,
    scanner_zero_blen_divides_by_zero.2.2 zeroBlenFile 0 1 (by decide) (by decide)⟩

/-- C10: during the scan, an empty line (its `line[0]` reads the string's
terminating `'\0'`) falls through to the sequence-data branch with length
zero: it records the current running offset as the buffered record's offset
when that is still the `-1` sentinel, adds `0` to the buffered length,
fixes `line_len` to `0 + 1 = 1` and `line_blen` to `0` when `line_len` was
still unset, and advances the running offset by exactly `0 + 1 = 1`. -/
theorem empty_line_scan_step (st : ScanState) (rest : List Chars) :
    indexLines st ([] :: rest) =
      indexLines
        { entry :=
            { name := st.entry.name,
              length := st.entry.length,
              offset := if st.entry.offset = -1 then st.offset else st.entry.offset,
              line_blen := (if st.entry.line_len ≠ 0 then st.entry.line_len else 1) - 1,
              line_len := if st.entry.line_len ≠ 0 then st.entry.line_len else 1 },
          offset := st.offset + 1,
          index := st.index } rest := by
  rcases rest with _ | ⟨q1, _ | ⟨q2, rest'⟩⟩ <;> simp [indexLines]


theorem wrappedAux_congr (W : Nat) :
    ∀ (f1 f2 : Nat) (s : Chars), s.length ≤ f1 → s.length ≤ f2 →
      wrappedAux f1 W s = wrappedAux f2 W s := by
  intro f1
  induction f1 with
  | zero =>
    intro f2 s h1 _
    have hs : s = [] := List.length_eq_zero.mp (by omega)
    subst hs
    cases f2 with
    | zero => rfl
    | succ g => simp [wrappedAux]
  | succ g ih =>
    intro f2 s h1 h2
    cases f2 with
    | zero =>
      have hs : s = [] := List.length_eq_zero.mp (by omega)
      subst hs
      simp [wrappedAux]
    | succ h =>
      simp only [wrappedAux]
      by_cases hc : W = 0 ∨ s.length ≤ W
      · rw [if_pos hc, if_pos hc]
      · rw [if_neg hc, if_neg hc]
        push_neg at hc
        have := ih h (s.drop W) (by simp [List.length_drop]; omega)
          (by simp [List.length_drop]; omega)
        rw [this]

/-- Unfolding equation of `wrapped`. -/
theorem wrapped_eq (W : Nat) (s : Chars) :
    wrapped W s =
      if W = 0 ∨ s.length ≤ W then s
      else s.take W ++ '\n' :: wrapped W (s.drop W) := by
  unfold wrapped
  by_cases hc : W = 0 ∨ s.length ≤ W
  · rw [if_pos hc]
    rcases Nat.eq_zero_or_pos s.length with h0 | hpos
    · have hs : s = [] := List.length_eq_zero.mp h0
      subst hs
      rfl
    · obtain ⟨n, hl⟩ : ∃ n, s.length = n + 1 := ⟨s.length - 1, by omega⟩
      rw [hl]
      simp only [wrappedAux]
      rw [if_pos hc]
  · rw [if_neg hc]
    push_neg at hc
    obtain ⟨hW0, hlt⟩ := hc
    obtain ⟨n, hl⟩ : ∃ n, s.length = n + 1 := ⟨s.length - 1, by omega⟩
    rw [hl]
    simp only [wrappedAux]
    rw [if_neg (by omega : ¬(W = 0 ∨ s.length ≤ W))]
    rw [wrappedAux_congr W n (s.drop W).length (s.drop W)
      (by simp [List.length_drop]; omega) le_rfl]

/-- Length of the wrapped layout: the bases plus one terminator per
completed line boundary. -/
theorem wrapped_length (W : Nat) (hW : 1 ≤ W) (s : Chars) :
    (wrapped W s).length = s.length + (s.length - 1) / W := by
  rw [wrapped_eq]
  by_cases hc : W = 0 ∨ s.length ≤ W
  · rw [if_pos hc]
    have : (s.length - 1) / W = 0 := Nat.div_eq_of_lt (by omega)
    omega
  · rw [if_neg hc]
    push_neg at hc
    have ih := wrapped_length W hW (s.drop W)
    have hdl : (s.drop W).length = s.length - W := by simp [List.length_drop]
    have htk : (s.take W).length = W := by simp [List.length_take]; omega
    have hdiv : (s.length - 1) / W = (s.length - W - 1) / W + 1 := by
      rw [show s.length - 1 = (s.length - W - 1) + W by omega]
      exact Nat.add_div_right _ (by omega)
    simp only [List.length_append, List.length_cons, ih, hdl, htk]
    omega
termination_by s.length
decreasing_by simp [List.length_drop]; omega

/-- A list of characters of a newline-free string passes the newline filter
unchanged. -/
theorem filter_newline_eq_self (s t : Chars) (hs : '\n' ∉ s)
    (hsub : ∀ c ∈ t, c ∈ s) : t.filter (fun c => c ≠ '\n') = t := by
  rw [List.filter_eq_self]
  intro a ha
  have h : a ≠ '\n' := fun h => hs (h ▸ hsub a ha)
  simpa using h

theorem append_drop_first (l₁ l₂ : Chars) (a : Nat) (h : a ≤ l₁.length) :
    (l₁ ++ l₂).drop a = l₁.drop a ++ l₂ := by
  rw [List.drop_append_eq_append_drop, Nat.sub_eq_zero_of_le h, List.drop_zero]

theorem append_extract (l₁ l₂ : Chars) (a m : Nat) (h : a + m ≤ l₁.length) :
    ((l₁ ++ l₂).drop a).take m = (l₁.drop a).take m := by
  rw [append_drop_first l₁ l₂ a (by omega), List.take_append_eq_append_take]
  have hlen : (l₁.drop a).length = l₁.length - a := by simp [List.length_drop]
  rw [hlen, Nat.sub_eq_zero_of_le (by omega), List.take_zero, List.append_nil]

theorem take_drop_take (s : Chars) (W a m : Nat) (h : a + m ≤ W) :
    ((s.take W).drop a).take m = (s.drop a).take m := by
  rw [List.drop_take, List.take_take]
  congr 1
  omega

/-- Core correctness of the coordinate translation of `getSubSequence`: on
the wrapped layout of a newline-free base string `s`, dropping
`start + (start-1)/W` bytes, taking
`len + ((start+len-1)/W - (start-1)/W)` bytes and erasing the newlines
yields exactly the bases at logical positions `start .. start+len-1`.
(When `start` is a positive multiple of `W` the seek lands on the newline
that precedes base `start`; the extra byte is accounted for by the embedded
newline count and erased.) -/
theorem wrapped_filter_slice (W : Nat) (hW : 1 ≤ W) (s : Chars) (hs : '\n' ∉ s)
    (start len : Nat) (hl : 1 ≤ len) (hr : start + len ≤ s.length) :
    (((wrapped W s).drop (start + (start - 1) / W)).take
        (len + ((start + len - 1) / W - (start - 1) / W))).filter (fun c => c ≠ '\n')
      = (s.drop start).take len := by
  have hsub : '\n' ∉ s.drop W := fun h => hs (List.mem_of_mem_drop h)
  by_cases hsl : s.length ≤ W
  · -- the whole record fits on one physical line
    rw [wrapped_eq W s, if_pos (Or.inr hsl)]
    have hnb : (start - 1) / W = 0 := Nat.div_eq_of_lt (by omega)
    have hne : (start + len - 1) / W = 0 := Nat.div_eq_of_lt (by omega)
    rw [hnb, hne]
    simp only [Nat.sub_self, Nat.add_zero]
    exact filter_newline_eq_self s _ hs
      (fun c hc => List.mem_of_mem_drop (List.mem_of_mem_take hc))
  · push_neg at hsl
    rw [wrapped_eq W s, if_neg (by omega)]
    have htkW : (s.take W).length = W := by simp [List.length_take]; omega
    by_cases hc1 : start + len ≤ W
    · -- the requested span lies inside the first physical line
      have hnb : (start - 1) / W = 0 := Nat.div_eq_of_lt (by omega)
      have hne : (start + len - 1) / W = 0 := Nat.div_eq_of_lt (by omega)
      rw [hnb, hne]
      simp only [Nat.sub_self, Nat.add_zero]
      rw [append_extract _ _ start len (by omega)]
      rw [take_drop_take s W start len (by omega)]
      exact filter_newline_eq_self s _ hs
        (fun c hc => List.mem_of_mem_drop (List.mem_of_mem_take hc))
    · push_neg at hc1
      by_cases hc2 : start < W
      · -- the span starts inside the first line and crosses into the rest
        have hl' : 1 ≤ start + len - W := by omega
        have hnb : (start - 1) / W = 0 := Nat.div_eq_of_lt (by omega)
        have hne : (start + len - 1) / W = (start + len - W - 1) / W + 1 := by
          rw [show start + len - 1 = (start + len - W - 1) + W by omega]
          exact Nat.add_div_right _ (by omega)
        rw [hnb, hne]
        simp only [Nat.sub_zero, Nat.add_zero]
        have hrec := wrapped_filter_slice W hW (s.drop W) hsub 0 (start + len - W) hl'
          (by simp [List.length_drop]; omega)
        simp only [Nat.zero_add, Nat.zero_sub, Nat.zero_div, Nat.sub_zero,
          Nat.add_zero, List.drop_zero] at hrec
        obtain ⟨d, hd⟩ : ∃ d, (start + len - W - 1) / W = d := ⟨_, rfl⟩
        rw [hd] at hrec ⊢
        have h1 : ((s.take W).drop start).length = W - start := by
          simp [List.length_drop, List.length_take]; omega
        rw [append_drop_first _ _ start (by rw [htkW]; omega)]
        rw [List.take_append_eq_append_take]
        have htk1 : List.take (len + (d + 1)) ((s.take W).drop start)
            = (s.take W).drop start :=
          List.take_of_length_le (by rw [h1]; omega)
        rw [htk1, h1]
        rw [show len + (d + 1) - (W - start)
            = ((start + len - W) + d) + 1 by omega]
        rw [List.take_succ_cons]
        rw [List.filter_append]
        rw [List.filter_cons_of_neg (by simp)]
        rw [filter_newline_eq_self s ((s.take W).drop start) hs
          (fun c hc => List.mem_of_mem_take (List.mem_of_mem_drop hc))]
        rw [hrec]
        have hsplit : s.drop start = (s.take W).drop start ++ s.drop W := by
          conv_lhs => rw [← List.take_append_drop W s]
          rw [append_drop_first _ _ start (by rw [htkW]; omega)]
        rw [hsplit, List.take_append_eq_append_take]
        have htk2 : List.take len ((s.take W).drop start) = (s.take W).drop start :=
          List.take_of_length_le (by rw [h1]; omega)
        rw [htk2, h1]
        rw [show len - (W - start) = start + len - W by omega]
      · -- the span starts at or after the start of the second line
        push_neg at hc2
        by_cases hc3 : start = W
        · -- the seek lands exactly on the first newline
          rw [hc3]
          have hnb : (W - 1) / W = 0 := Nat.div_eq_of_lt (by omega)
          have hne : (W + len - 1) / W = (len - 1) / W + 1 := by
            rw [show W + len - 1 = (len - 1) + W by omega]
            exact Nat.add_div_right _ (by omega)
          rw [hnb, hne]
          simp only [Nat.sub_zero, Nat.add_zero]
          have hdropW : (s.take W ++ '\n' :: wrapped W (s.drop W)).drop W
              = '\n' :: wrapped W (s.drop W) := by
            rw [List.drop_append_eq_append_drop,
              List.drop_eq_nil_of_le (le_of_eq htkW), htkW, Nat.sub_self,
              List.drop_zero, List.nil_append]
          rw [hdropW]
          rw [show len + ((len - 1) / W + 1) = (len + (len - 1) / W) + 1 by omega]
          rw [List.take_succ_cons]
          rw [List.filter_cons_of_neg (by simp)]
          have hrec := wrapped_filter_slice W hW (s.drop W) hsub 0 len hl
            (by simp [List.length_drop]; omega)
          simp only [Nat.zero_add, Nat.zero_sub, Nat.zero_div, Nat.sub_zero,
            Nat.add_zero, List.drop_zero] at hrec
          exact hrec
        · -- the span starts strictly inside the tail: peel one full line
          have hs1 : 1 ≤ start - W := by omega
          have hnb : (start - 1) / W = (start - W - 1) / W + 1 := by
            rw [show start - 1 = (start - W - 1) + W by omega]
            exact Nat.add_div_right _ (by omega)
          have hne : (start + len - 1) / W = (start - W + len - 1) / W + 1 := by
            rw [show start + len - 1 = (start - W + len - 1) + W by omega]
            exact Nat.add_div_right _ (by omega)
          rw [hnb, hne]
          have hrec := wrapped_filter_slice W hW (s.drop W) hsub (start - W) len hl
            (by simp [List.length_drop]; omega)
          obtain ⟨d1, hd1⟩ : ∃ d, (start - W - 1) / W = d := ⟨_, rfl⟩
          obtain ⟨d2, hd2⟩ : ∃ d, (start - W + len - 1) / W = d := ⟨_, rfl⟩
          rw [hd1, hd2] at hrec ⊢
          rw [show start + (d1 + 1) = (W + 1) + ((start - W) + d1) by omega]
          rw [show len + (d2 + 1 - (d1 + 1)) = len + (d2 - d1) by omega]
          have hdropped : (s.take W ++ '\n' :: wrapped W (s.drop W)).drop
                ((W + 1) + ((start - W) + d1))
              = (wrapped W (s.drop W)).drop ((start - W) + d1) := by
            rw [List.drop_append_eq_append_drop,
              List.drop_eq_nil_of_le (by rw [htkW]; omega), htkW,
              show W + 1 + ((start - W) + d1) - W
                = ((start - W) + d1) + 1 by omega,
              List.drop_succ_cons, List.nil_append]
          rw [hdropped]
          rw [hrec]
          rw [List.drop_drop, show W + (start - W) = start by omega]
termination_by s.length
decreasing_by all_goals (simp [List.length_drop]; omega)

/-- Reading `m` bytes at relative position `k` inside a byte segment of the
file equals reading them from the segment itself. -/
theorem seg_extract (file p : Chars) (o k m : Nat)
    (hseg : (file.drop o).take p.length = p) (hkm : k + m ≤ p.length) :
    (file.drop (o + k)).take m = (p.drop k).take m := by
  rw [← List.drop_drop]
  have h2 : p.drop k = ((file.drop o).drop k).take (p.length - k) := by
    conv_lhs => rw [← hseg]
    rw [List.drop_take]
  rw [h2, List.take_take]
  congr 1
  omega


/-- C1: for a record whose entry has `line_blen ≥ 1` laid out in the file,
and any `start ≥ 0`, `length ≥ 1` with `start + length` within the record,
`getSubSequence` computes `newlines_before = start > 0 ? (start-1)/line_blen
: 0` and `newlines_through_end = (start+length-1)/line_blen`, seeks to
`offset + start + newlines_before`, reads
`length + (newlines_through_end - newlines_before)` raw bytes, strips the
newlines, and the remaining characters are exactly the `length` bases at
logical positions `start .. start + length - 1`. -/
theorem getSubSequence_correct (index : FastaIndex) (file : Chars)
    (name : Chars) (e : FastaIndexEntry) (s : Chars) (start length : Int)
    (hfind : mapFind? index name = some e)
    (hlay : recordLaidOut file e s)
    (hstart : 0 ≤ start) (hlen : 1 ≤ length)
    (hrange : start + length ≤ (s.length : Int)) :
    getSubSequence index file name start length =
      .ok ((s.drop start.toNat).take length.toNat) := by
  obtain ⟨hoff, hblen, hlenE, hnl, hseg⟩ := hlay
  simp only [getSubSequence, hfind, entrySubSequence]
  rw [if_neg (by omega), if_neg (by omega : ¬ e.line_blen = 0)]
  obtain ⟨S, rfl⟩ : ∃ n : Nat, start = (n : Int) :=
    ⟨start.toNat, (Int.toNat_of_nonneg hstart).symm⟩
  obtain ⟨L, rfl⟩ : ∃ n : Nat, length = (n : Int) :=
    ⟨length.toNat, (Int.toNat_of_nonneg (by omega)).symm⟩
  obtain ⟨W, hWe⟩ : ∃ n : Nat, e.line_blen = (n : Int) :=
    ⟨e.line_blen.toNat, (Int.toNat_of_nonneg (by omega)).symm⟩
  obtain ⟨O, hOe⟩ : ∃ n : Nat, e.offset = (n : Int) :=
    ⟨e.offset.toNat, (Int.toNat_of_nonneg hoff).symm⟩
  have hW1 : 1 ≤ W := by omega
  have hL1 : 1 ≤ L := by omega
  have hr : S + L ≤ s.length := by omega
  rw [hWe, hOe] at hseg ⊢
  rw [show ((W : Int)).toNat = W from rfl, show ((O : Int)).toNat = O from rfl] at hseg
  have hnb : (if (0 : Int) < (S : Int) then ((S : Int) - 1).tdiv (W : Int) else 0)
      = (((S - 1) / W : Nat) : Int) := by
    by_cases h0 : 0 < S
    · rw [if_pos (by omega)]
      rw [show ((S : Int) - 1) = ((S - 1 : Nat) : Int) by omega]
      rfl
    · rw [if_neg (by omega)]
      have hz : S = 0 := by omega
      rw [hz]
      norm_num
  have hne : ((S : Int) + (L : Int) - 1).tdiv (W : Int)
      = (((S + L - 1) / W : Nat) : Int) := by
    rw [show ((S : Int) + (L : Int) - 1) = ((S + L - 1 : Nat) : Int) by omega]
    rfl
  rw [hnb, hne]
  obtain ⟨d1, hd1⟩ : ∃ d, (S - 1) / W = d := ⟨_, rfl⟩
  obtain ⟨d2, hd2⟩ : ∃ d, (S + L - 1) / W = d := ⟨_, rfl⟩
  have hmono : d1 ≤ d2 := by
    rw [← hd1, ← hd2]
    exact Nat.div_le_div_right (by omega)
  rw [hd1, hd2]
  unfold readBytes
  rw [if_neg (by omega)]
  rw [show ((O : Int) + (d1 : Int) + (S : Int)).toNat = O + (S + d1) by omega]
  rw [show ((L : Int) + ((d2 : Int) - (d1 : Int))).toNat = L + (d2 - d1) by omega]
  have hbound : (S + d1) + (L + (d2 - d1)) ≤ (wrapped W s).length := by
    rw [wrapped_length W hW1 s]
    have hdd : d2 ≤ (s.length - 1) / W := by
      rw [← hd2]
      exact Nat.div_le_div_right (by omega)
    omega
  rw [seg_extract file (wrapped W s) O (S + d1) (L + (d2 - d1)) hseg hbound]
  rw [show ((S : Int)).toNat = S from rfl, show ((L : Int)).toNat = L from rfl]
  have hmain := wrapped_filter_slice W hW1 s hnl S L hL1 hr
  rw [hd1, hd2] at hmain
  rw [show S + d1 = S + d1 from rfl]
  exact congrArg Except.ok hmain

theorem getSubSequence_correct_witness :
    mapFind? demoIndex "seq1".toList = some ⟨"seq1".toList, 16, 6, 10, 11⟩ ∧
    recordLaidOut demoFile ⟨"seq1".toList, 16, 6, 10, 11⟩ "ACGTACGTACGTACGT".toList ∧
    (0 : Int) ≤ 10 ∧ (1 : Int) ≤ 6 ∧
    (10 : Int) + 6 ≤ (("ACGTACGTACGTACGT".toList : Chars).length : Int) ∧
    getSubSequence demoIndex demoFile "seq1".toList 10 6 =
      .ok (("ACGTACGTACGTACGT".toList.drop (10 : Int).toNat).take (6 : Int).toNat) :=
  ⟨by decide, by unfold recordLaidOut; decide, by decide, by decide, by decide,
    getSubSequence_correct demoIndex demoFile "seq1".toList
      ⟨"seq1".toList, 16, 6, 10, 11⟩ "ACGTACGTACGTACGT".toList 10 6
      (by decide) (by unfold recordLaidOut; decide) (by decide) (by decide) (by decide)⟩

theorem digitChar_isDigit (d : Nat) (h : d < 10) : (digitChar d).isDigit = true := by
  interval_cases d <;> decide

theorem digitChar_toNat (d : Nat) (h : d < 10) : (digitChar d).toNat = 48 + d := by
  interval_cases d <;> decide

theorem printNatAux_ne_nil (fuel n : Nat) (h : n < fuel) : printNatAux fuel n ≠ [] := by
  cases fuel with
  | zero => omega
  | succ g =>
    unfold printNatAux
    by_cases h10 : n < 10
    · simp [h10]
    · simp [h10]

theorem printNatAux_digits (fuel : Nat) :
    ∀ n, n < fuel → ∀ c ∈ printNatAux fuel n, c.isDigit = true := by
  induction fuel with
  | zero => omega
  | succ g ih =>
    intro n h c hc
    unfold printNatAux at hc
    by_cases h10 : n < 10
    · rw [if_pos h10] at hc
      simp at hc
      exact hc ▸ digitChar_isDigit n h10
    · rw [if_neg h10] at hc
      rcases List.mem_append.mp hc with hm | hm
      · have hdiv : n / 10 < n := Nat.div_lt_self (by omega) (by omega)
        exact ih (n / 10) (by omega) c hm
      · simp at hm
        exact hm ▸ digitChar_isDigit (n % 10) (Nat.mod_lt _ (by omega))

theorem decimalVal_append_digit (a : Chars) (c : Char) :
    decimalVal (a ++ [c]) = decimalVal a * 10 + (c.toNat - 48) := by
  unfold decimalVal
  rw [List.foldl_append]
  rfl

theorem printNatAux_val (fuel : Nat) :
    ∀ n, n < fuel → decimalVal (printNatAux fuel n) = n := by
  induction fuel with
  | zero => omega
  | succ g ih =>
    intro n h
    unfold printNatAux
    by_cases h10 : n < 10
    · rw [if_pos h10]
      show decimalVal [digitChar n] = n
      unfold decimalVal
      simp [List.foldl, digitChar_toNat n h10]
    · rw [if_neg h10]
      rw [decimalVal_append_digit]
      have hdiv : n / 10 < n := Nat.div_lt_self (by omega) (by omega)
      rw [ih (n / 10) (by omega), digitChar_toNat (n % 10) (Nat.mod_lt _ (by omega))]
      omega

theorem parseNat?_printNat (n : Nat) : parseNat? (printNat n) = some n := by
  unfold parseNat? printNat
  rw [if_pos ⟨printNatAux_ne_nil (n + 1) n (by omega), printNatAux_digits (n + 1) n (by omega)⟩]
  rw [printNatAux_val (n + 1) n (by omega)]

theorem printInt_chars (i : Int) : ∀ c ∈ printInt i, c = '-' ∨ c.isDigit = true := by
  intro c hc
  unfold printInt at hc
  by_cases hneg : i < 0
  · rw [if_pos hneg] at hc
    rcases List.mem_cons.mp hc with h | h
    · exact Or.inl h
    · exact Or.inr (printNatAux_digits _ _ (by omega) c h)
  · rw [if_neg hneg] at hc
    exact Or.inr (printNatAux_digits _ _ (by omega) c hc)

theorem printInt_no_tab (i : Int) : '\t' ∉ printInt i := by
  intro h
  rcases printInt_chars i '\t' h with h1 | h1
  · exact absurd h1 (by decide)
  · exact absurd h1 (by decide)

theorem printInt_no_newline (i : Int) : '\n' ∉ printInt i := by
  intro h
  rcases printInt_chars i '\n' h with h1 | h1
  · exact absurd h1 (by decide)
  · exact absurd h1 (by decide)

theorem parseInt?_printInt (i : Int) : parseInt? (printInt i) = some i := by
  unfold parseInt? printInt
  by_cases hneg : i < 0
  · rw [if_pos hneg]
    rw [if_pos (by rfl : ('-' :: printNat (-i).toNat).head? = some '-')]
    rw [show ('-' :: printNat (-i).toNat).drop 1 = printNat (-i).toNat from rfl]
    rw [parseNat?_printNat]
    rw [Option.map_some']
    congr 1
    omega
  · rw [if_neg hneg]
    have hne := printNatAux_ne_nil (i.toNat + 1) i.toNat (by omega)
    obtain ⟨c, t, hct⟩ : ∃ c t, printNat i.toNat = c :: t := by
      cases hh : printNat i.toNat with
      | nil => exact absurd hh hne
      | cons c t => exact ⟨c, t, rfl⟩
    have hcd : c.isDigit = true :=
      printNatAux_digits (i.toNat + 1) i.toNat (by omega) c
        (by rw [show printNatAux (i.toNat + 1) i.toNat = printNat i.toNat from rfl, hct]
            exact List.mem_cons_self _ _)
    rw [if_neg (by
      rw [hct]
      simp only [List.head?_cons, Option.some.injEq]
      intro h
      rw [h] at hcd
      exact absurd hcd (by decide))]
    rw [parseNat?_printNat]
    rw [Option.map_some']
    congr 1
    omega

theorem splitTabs_ne_nil (l : Chars) : splitTabs l ≠ [] := by
  induction l with
  | nil => simp [splitTabs]
  | cons c rest ih =>
    unfold splitTabs
    by_cases hc : c = '\t'
    · simp [hc]
    · rw [if_neg hc]
      cases h : splitTabs rest <;> simp

theorem splitTabs_no_tab (l : Chars) (h : '\t' ∉ l) : splitTabs l = [l] := by
  induction l with
  | nil => rfl
  | cons c rest ih =>
    have hc : c ≠ '\t' := fun hh => h (hh ▸ List.mem_cons_self _ _)
    have hrest : '\t' ∉ rest := fun hh => h (List.mem_cons_of_mem _ hh)
    unfold splitTabs
    rw [if_neg hc, ih hrest]

theorem splitTabs_append (f rest : Chars) (hf : '\t' ∉ f) :
    splitTabs (f ++ '\t' :: rest) = f :: splitTabs rest := by
  induction f with
  | nil => simp [splitTabs]
  | cons c f' ih =>
    have hc : c ≠ '\t' := fun hh => hf (hh ▸ List.mem_cons_self _ _)
    have hf' : '\t' ∉ f' := fun hh => hf (List.mem_cons_of_mem _ hh)
    simp only [List.cons_append]
    conv_lhs => unfold splitTabs
    rw [if_neg hc, ih hf']

theorem splitTabs_joinTabs (fields : List Chars) (hne : fields ≠ [])
    (hf : ∀ f ∈ fields, '\t' ∉ f) : splitTabs (joinTabs fields) = fields := by
  induction fields with
  | nil => exact absurd rfl hne
  | cons f fs ih =>
    cases fs with
    | nil =>
      show splitTabs (joinTabs [f]) = [f]
      rw [show joinTabs [f] = f from rfl]
      exact splitTabs_no_tab f (hf f (List.mem_cons_self _ _))
    | cons g gs =>
      rw [show joinTabs (f :: g :: gs) = f ++ '\t' :: joinTabs (g :: gs) from rfl]
      rw [splitTabs_append f _ (hf f (List.mem_cons_self _ _))]
      rw [ih (by simp) (fun x hx => hf x (List.mem_cons_of_mem _ hx))]

theorem joinTabs_mem (fields : List Chars) (c : Char) (hc : c ∈ joinTabs fields) :
    c = '\t' ∨ ∃ f ∈ fields, c ∈ f := by
  induction fields with
  | nil => cases hc
  | cons f fs ih =>
    cases fs with
    | nil =>
      rw [show joinTabs [f] = f from rfl] at hc
      exact Or.inr ⟨f, List.mem_cons_self _ _, hc⟩
    | cons g gs =>
      rw [show joinTabs (f :: g :: gs) = f ++ '\t' :: joinTabs (g :: gs) from rfl] at hc
      rcases List.mem_append.mp hc with h | h
      · exact Or.inr ⟨f, List.mem_cons_self _ _, h⟩
      · rcases List.mem_cons.mp h with h | h
        · exact Or.inl h
        · rcases ih h with h | ⟨x, hx1, hx2⟩
          · exact Or.inl h
          · exact Or.inr ⟨x, List.mem_cons_of_mem _ hx1, hx2⟩

theorem splitLines_of_ne_nil (f : Chars) (h : f ≠ []) :
    splitLines f = splitLinesAux f [] := by
  cases f with
  | nil => exact absurd rfl h
  | cons c rest => rfl

theorem splitLinesAux_append (l : Chars) (tail : Chars) (hl : '\n' ∉ l) :
    ∀ acc : Chars, splitLinesAux (l ++ '\n' :: tail) acc
      = (acc.reverse ++ l) :: (if tail = [] then [] else splitLinesAux tail []) := by
  induction l with
  | nil =>
    intro acc
    simp only [List.nil_append]
    conv_lhs => unfold splitLinesAux
    rw [if_pos rfl]
    cases tail with
    | nil => simp
    | cons t ts => simp
  | cons c l' ih =>
    intro acc
    have hc : c ≠ '\n' := fun hh => hl (hh ▸ List.mem_cons_self _ _)
    have hl' : '\n' ∉ l' := fun hh => hl (List.mem_cons_of_mem _ hh)
    simp only [List.cons_append]
    conv_lhs => unfold splitLinesAux
    rw [if_neg hc, ih hl' (c :: acc)]
    simp [List.reverse_cons, List.append_assoc]

theorem splitLines_joinLines (ls : List Chars) (h : ∀ l ∈ ls, '\n' ∉ l) :
    splitLines (joinLines ls) = ls := by
  induction ls with
  | nil => rfl
  | cons l ls' ih =>
    rw [show joinLines (l :: ls') = l ++ '\n' :: joinLines ls' from rfl]
    rw [splitLines_of_ne_nil _ (by simp)]
    rw [splitLinesAux_append l (joinLines ls') (h l (List.mem_cons_self _ _)) []]
    simp only [List.reverse_nil, List.nil_append]
    by_cases hj : joinLines ls' = []
    · rw [if_pos hj]
      cases ls' with
      | nil => rfl
      | cons m ms =>
        rw [show joinLines (m :: ms) = m ++ '\n' :: joinLines ms from rfl] at hj
        simp at hj
    · rw [if_neg hj]
      rw [← splitLines_of_ne_nil _ hj, ih (fun x hx => h x (List.mem_cons_of_mem _ hx))]

theorem splitLinesAux_no_newline (f : Chars) :
    ∀ acc, '\n' ∉ acc → ∀ l ∈ splitLinesAux f acc, '\n' ∉ l := by
  induction f with
  | nil =>
    intro acc hacc l hm
    simp only [splitLinesAux, List.mem_singleton] at hm
    subst hm
    simpa using hacc
  | cons c rest ih =>
    intro acc hacc l hm
    by_cases hc : c = '\n'
    · subst hc
      conv at hm => lhs; unfold splitLinesAux
      rw [if_pos rfl] at hm
      cases rest with
      | nil =>
        simp only [List.mem_singleton] at hm
        subst hm
        simpa using hacc
      | cons r rs =>
        rcases List.mem_cons.mp hm with hm1 | hm1
        · subst hm1
          simpa using hacc
        · exact ih [] (by simp) l hm1
    · conv at hm => lhs; unfold splitLinesAux
      rw [if_neg hc] at hm
      exact ih (c :: acc) (by
        intro hh
        rcases List.mem_cons.mp hh with h1 | h1
        · exact hc h1.symm
        · exact hacc h1) l hm

theorem splitLines_no_newline (f : Chars) : ∀ l ∈ splitLines f, '\n' ∉ l := by
  cases f with
  | nil => intro l hm; cases hm
  | cons c rest =>
    intro l hm
    exact splitLinesAux_no_newline (c :: rest) [] (by simp) l hm

theorem mapFind?_append_single (m : FastaIndex) (k' : Chars) (v : FastaIndexEntry)
    (k : Chars) :
    mapFind? (m ++ [(k', v)]) k
      = match mapFind? m k with
        | some w => some w
        | none => if k' = k then some v else none := by
  induction m with
  | nil => simp [mapFind?]
  | cons p rest ih =>
    obtain ⟨a, b⟩ := p
    simp only [List.cons_append, mapFind?]
    by_cases hak : a = k
    · simp [hak]
    · simp only [if_neg hak]
      exact ih

theorem mapFind?_mapInsert (m : FastaIndex) (k' : Chars) (v : FastaIndexEntry)
    (k : Chars) :
    mapFind? (mapInsert m k' v) k
      = match mapFind? m k with
        | some w => some w
        | none => if k' = k then some v else none := by
  unfold mapInsert
  cases hf : mapFind? m k' with
  | some w =>
    cases hm : mapFind? m k with
    | some v' => simp [hm]
    | none =>
      simp only [hm]
      by_cases he : k' = k
      · subst he
        rw [hf] at hm
        cases hm
      · simp [he]
  | none => exact mapFind?_append_single m k' v k

theorem mapFind?_foldl (es : List FastaIndexEntry) :
    ∀ (acc : FastaIndex) (k : Chars),
      mapFind? (es.foldl (fun m e => mapInsert m e.name e) acc) k
        = match mapFind? acc k with
          | some v => some v
          | none => es.find? (fun e => decide (e.name = k)) := by
  induction es with
  | nil =>
    intro acc k
    cases hm : mapFind? acc k <;> simp [hm, List.find?]
  | cons e es' ih =>
    intro acc k
    simp only [List.foldl_cons]
    rw [ih]
    rw [mapFind?_mapInsert]
    cases hm : mapFind? acc k with
    | some w => simp [List.find?]
    | none =>
      simp only []
      by_cases he : e.name = k
      · rw [if_pos he]
        simp [List.find?, he]
      · rw [if_neg he]
        simp [List.find?, he]

theorem mapFind?_map_pair (es : List FastaIndexEntry) (k : Chars) :
    mapFind? (es.map (fun e => (e.name, e))) k
      = es.find? (fun e => decide (e.name = k)) := by
  induction es with
  | nil => rfl
  | cons e es' ih =>
    simp only [List.map_cons, mapFind?, List.find?]
    by_cases he : e.name = k
    · simp [he]
    · simp [he, ih]

theorem find?_name_perm (es1 es2 : List FastaIndexEntry) (hp : es1.Perm es2)
    (hnd : (es1.map (fun e => e.name)).Nodup) (k : Chars) :
    es1.find? (fun e => decide (e.name = k)) = es2.find? (fun e => decide (e.name = k)) := by
  cases h1 : es1.find? (fun e => decide (e.name = k)) with
  | none =>
    rw [List.find?_eq_none] at h1
    rw [eq_comm, List.find?_eq_none]
    intro x hx
    exact h1 x (hp.mem_iff.mpr hx)
  | some a =>
    have ha1 : a ∈ es1 := List.mem_of_find?_eq_some h1
    have hpa := List.find?_some h1
    cases h2 : es2.find? (fun e => decide (e.name = k)) with
    | none =>
      rw [List.find?_eq_none] at h2
      exact absurd hpa (by simpa using h2 a (hp.mem_iff.mp ha1))
    | some b =>
      have hb2 : b ∈ es1 := hp.mem_iff.mpr (List.mem_of_find?_eq_some h2)
      have hpb := List.find?_some h2
      have : a = b := by
        apply List.inj_on_of_nodup_map hnd ha1 hb2
        simp at hpa hpb
        rw [hpa, hpb]
      rw [this]

theorem insertSorted_perm (e : FastaIndexEntry) (l : List FastaIndexEntry) :
    (insertSorted e l).Perm (e :: l) := by
  induction l with
  | nil => exact List.Perm.refl _
  | cons x xs ih =>
    unfold insertSorted
    by_cases h : e.offset < x.offset
    · rw [if_pos h]
    · rw [if_neg h]
      exact (ih.cons x).trans (List.Perm.swap e x xs)

theorem sortByOffset_perm (l : List FastaIndexEntry) : (sortByOffset l).Perm l := by
  induction l with
  | nil => exact List.Perm.refl _
  | cons x xs ih =>
    unfold sortByOffset at ih ⊢
    simp only [List.foldr_cons]
    exact (insertSorted_perm x _).trans (ih.cons x)

theorem splitTabs_entryLine (e : FastaIndexEntry) (htab : '\t' ∉ e.name) :
    splitTabs (entryLine e)
      = [e.name, printInt e.length, printInt e.offset,
         printInt e.line_blen, printInt e.line_len] := by
  unfold entryLine
  apply splitTabs_joinTabs _ (by simp)
  intro f hf
  simp only [List.mem_cons, List.not_mem_nil, or_false] at hf
  rcases hf with rfl | rfl | rfl | rfl | rfl
  · exact htab
  · exact printInt_no_tab _
  · exact printInt_no_tab _
  · exact printInt_no_tab _
  · exact printInt_no_tab _

theorem entryLine_no_newline (e : FastaIndexEntry) (hn : '\n' ∉ e.name) :
    '\n' ∉ entryLine e := by
  intro h
  unfold entryLine at h
  rcases joinTabs_mem _ _ h with h1 | ⟨f, hf, hcf⟩
  · exact absurd h1 (by decide)
  · simp only [List.mem_cons, List.not_mem_nil, or_false] at hf
    rcases hf with rfl | rfl | rfl | rfl | rfl
    · exact hn hcf
    · exact printInt_no_newline _ hcf
    · exact printInt_no_newline _ hcf
    · exact printInt_no_newline _ hcf
    · exact printInt_no_newline _ hcf

theorem readIndexLines_entryLines (es : List FastaIndexEntry) :
    ∀ (k : Nat) (acc : FastaIndex), (∀ e ∈ es, '\t' ∉ e.name) →
      readIndexLines k acc (es.map entryLine)
        = .ok (es.foldl (fun m e => mapInsert m e.name e) acc) := by
  induction es with
  | nil => intro k acc _; rfl
  | cons e es' ih =>
    intro k acc htab
    simp only [List.map_cons, List.foldl_cons]
    rw [show readIndexLines k acc (entryLine e :: es'.map entryLine)
        = (match splitTabs (entryLine e) with
           | [f0, f1, f2, f3, f4] =>
             match parseInt? f1, parseInt? f2, parseInt? f3, parseInt? f4 with
             | some len, some off, some bl, some ll =>
               readIndexLines (k + 1) (mapInsert acc f0 ⟨f0, len, off, bl, ll⟩)
                 (es'.map entryLine)
             | _, _, _, _ => .error .castError
           | _ => .error (.formatError k)) from rfl]
    rw [splitTabs_entryLine e (htab e (List.mem_cons_self _ _))]
    simp only [parseInt?_printInt]
    rw [show (⟨e.name, e.length, e.offset, e.line_blen, e.line_len⟩ : FastaIndexEntry)
        = e from rfl]
    exact ih (k + 1) _ (fun x hx => htab x (List.mem_cons_of_mem _ hx))

theorem mapFind?_none_not_mem_keys (m : FastaIndex) (k : Chars)
    (h : mapFind? m k = none) : k ∉ m.map Prod.fst := by
  induction m with
  | nil => simp
  | cons p rest ih =>
    obtain ⟨a, b⟩ := p
    simp only [mapFind?] at h
    by_cases hak : a = k
    · rw [if_pos hak] at h
      cases h
    · rw [if_neg hak] at h
      simp only [List.map_cons, List.mem_cons]
      intro hm
      rcases hm with hm | hm
      · exact hak hm.symm
      · exact ih h hm


theorem mapInsert_inv (m : FastaIndex) (k : Chars) (v : FastaIndexEntry)
    (hkv : k = v.name) (hvn : '\n' ∉ v.name) (hinv : indexInv m) :
    indexInv (mapInsert m k v) := by
  unfold mapInsert
  cases hf : mapFind? m k with
  | some w => exact hinv
  | none =>
    refine ⟨⟨?_, ?_⟩, ?_⟩
    · rw [List.map_append]
      rw [List.nodup_append]
      refine ⟨hinv.1.1, by simp, ?_⟩
      intro a ha hb
      simp only [List.map_cons, List.map_nil, List.mem_singleton] at hb
      subst hb
      exact mapFind?_none_not_mem_keys m a hf ha
    · intro p hp
      rcases List.mem_append.mp hp with h | h
      · exact hinv.1.2 p h
      · simp only [List.mem_singleton] at h
        subst h
        exact hkv
    · intro p hp
      rcases List.mem_append.mp hp with h | h
      · exact hinv.2 p h
      · simp only [List.mem_singleton] at h
        subst h
        exact hvn

theorem flush_inv (m : FastaIndex) (e : FastaIndexEntry) (hen : '\n' ∉ e.name)
    (hinv : indexInv m) : indexInv (flushEntryToIndex m e) :=
  mapInsert_inv m e.name ⟨e.name, e.length, e.offset, e.line_blen, e.line_len⟩
    rfl hen hinv

/-- One-step unfolding of the scan loop on a cons cell, with the tail left
abstract (the compiled matcher of `indexLines` inspects the tail, so this
equation is proved by cases on its shape). -/
theorem indexLines_cons (st : ScanState) (line : Chars) (rest : List Chars) :
    indexLines st (line :: rest) =
      (if line.headD '\x00' = ';' then
        indexLines { st with offset := st.offset + line.length + 1 } rest
      else if line.headD '\x00' = '+' then
        match rest with
        | q1 :: q2 :: rest' =>
          indexLines { st with offset := st.offset + q1.length + 1 + q2.length + 1 } rest'
        | _ => flushEntryToIndex st.index st.entry
      else if line.headD '\x00' = '>' ∨ line.headD '\x00' = '@' then
        indexLines
          { (if st.entry.name ≠ [] then
              { st with index := flushEntryToIndex st.index st.entry, entry := clearEntry }
            else st) with
            entry := { (if st.entry.name ≠ [] then
                { st with index := flushEntryToIndex st.index st.entry, entry := clearEntry }
              else st).entry with name := line.drop 1 },
            offset := st.offset + line.length + 1 } rest
      else
        indexLines
          { st with
            entry := { st.entry with
              offset := if st.entry.offset = -1 then st.offset else st.entry.offset,
              length := st.entry.length + line.length,
              line_len := if st.entry.line_len ≠ 0 then st.entry.line_len
                else (line.length : Int) + 1,
              line_blen := (if st.entry.line_len ≠ 0 then st.entry.line_len
                else (line.length : Int) + 1) - 1 },
            offset := st.offset + line.length + 1 } rest) := by
  rcases rest with _ | ⟨q1, _ | ⟨q2, rest2⟩⟩ <;> rfl

/-- The scanner's loop preserves `indexInv` for any newline-free line list
and newline-free buffered name. -/
theorem indexLines_inv : ∀ (lines : List Chars) (st : ScanState),
    (∀ l ∈ lines, '\n' ∉ l) → '\n' ∉ st.entry.name →
    indexInv st.index → indexInv (indexLines st lines) := by
  intro lines st hl hen hinv
  cases hL : lines with
  | nil => exact flush_inv st.index st.entry hen hinv
  | cons line rest =>
    rw [hL] at hl
    have hline : '\n' ∉ line := hl line (List.mem_cons_self _ _)
    have hrest : ∀ l ∈ rest, '\n' ∉ l := fun l h => hl l (List.mem_cons_of_mem _ h)
    rw [indexLines_cons]
    by_cases h1 : line.headD '\x00' = ';'
    · rw [if_pos h1]
      exact indexLines_inv rest _ hrest hen hinv
    · rw [if_neg h1]
      by_cases h2 : line.headD '\x00' = '+'
      · rw [if_pos h2]
        rcases rest with _ | ⟨q1, _ | ⟨q2, rest'⟩⟩
        · exact flush_inv st.index st.entry hen hinv
        · exact flush_inv st.index st.entry hen hinv
        · exact indexLines_inv rest' _
            (fun l h => hrest l (List.mem_cons_of_mem _ (List.mem_cons_of_mem _ h)))
            hen hinv
      · rw [if_neg h2]
        by_cases h3 : line.headD '\x00' = '>' ∨ line.headD '\x00' = '@'
        · rw [if_pos h3]
          apply indexLines_inv rest _ hrest
          · exact fun h => hline (List.mem_of_mem_drop h)
          · by_cases hname : st.entry.name ≠ []
            · rw [if_pos hname]
              exact flush_inv st.index st.entry hen hinv
            · rw [if_neg hname]
              exact hinv
        · rw [if_neg h3]
          exact indexLines_inv rest _ hrest hen hinv
termination_by lines => lines.length
decreasing_by all_goals (rw [hL]; simp; try omega)

theorem idx_eq_map_pair (m : FastaIndex) (hk : ∀ p ∈ m, p.1 = p.2.name) :
    (m.map Prod.snd).map (fun e => (e.name, e)) = m := by
  induction m with
  | nil => rfl
  | cons p rest ih =>
    obtain ⟨k, e⟩ := p
    simp only [List.map_cons]
    have hke : k = e.name := hk (k, e) (List.mem_cons_self _ _)
    rw [ih (fun q hq => hk q (List.mem_cons_of_mem _ hq))]
    rw [← hke]

/-- C4 (amended): for a source file none of whose scanned record names
contains a tab, building the index by scanning, serializing it with
`writeIndexFile` and parsing the written file with `readIndexFile` succeeds
and yields an entry set identical to the in-memory index: the same names
and, for each name, the same five fields. -/
theorem roundtrip_preserves_index (file : Chars)
    (htab : ∀ p ∈ indexReference file, '\t' ∉ (p.2).name) :
    ∃ m, readIndexFile (writeIndexFile (indexReference file)) = .ok m ∧
      ∀ name, mapFind? m name = mapFind? (indexReference file) name := by
  have hinv : indexInv (indexReference file) :=
    indexLines_inv (splitLines file) ⟨clearEntry, 0, []⟩
      (splitLines_no_newline file) (by simp [clearEntry])
      (by refine ⟨⟨?_, ?_⟩, ?_⟩ <;> simp)
  obtain ⟨⟨hnd, hkeys⟩, hnames⟩ := hinv
  have hperm : (sortByOffset ((indexReference file).map Prod.snd)).Perm
      ((indexReference file).map Prod.snd) := sortByOffset_perm _
  have hmemv : ∀ e ∈ (indexReference file).map Prod.snd, '\t' ∉ e.name ∧ '\n' ∉ e.name := by
    intro e he
    obtain ⟨p, hp, hpe⟩ := List.mem_map.mp he
    exact ⟨hpe ▸ htab p hp, hpe ▸ hnames p hp⟩
  have hmems : ∀ e ∈ sortByOffset ((indexReference file).map Prod.snd),
      '\t' ∉ e.name ∧ '\n' ∉ e.name := fun e he => hmemv e (hperm.mem_iff.mp he)
  have hnl : ∀ l ∈ writeIndexLines (indexReference file), '\n' ∉ l := by
    intro l hl
    unfold writeIndexLines at hl
    obtain ⟨e, he, rfl⟩ := List.mem_map.mp hl
    exact entryLine_no_newline e (hmems e he).2
  rw [show writeIndexFile (indexReference file)
      = joinLines (writeIndexLines (indexReference file)) from rfl]
  rw [show readIndexFile (joinLines (writeIndexLines (indexReference file)))
      = readIndexLines 1 [] (splitLines (joinLines (writeIndexLines (indexReference file))))
      from rfl]
  rw [splitLines_joinLines _ hnl]
  rw [show writeIndexLines (indexReference file)
      = (sortByOffset ((indexReference file).map Prod.snd)).map entryLine from rfl]
  rw [readIndexLines_entryLines _ 1 [] (fun e he => (hmems e he).1)]
  refine ⟨_, rfl, ?_⟩
  intro name
  rw [mapFind?_foldl]
  show (sortByOffset ((indexReference file).map Prod.snd)).find?
      (fun e => decide (e.name = name)) = mapFind? (indexReference file) name
  have hvn : (((indexReference file).map Prod.snd).map (fun e => e.name)).Nodup := by
    have hmm : ((indexReference file).map Prod.snd).map (fun e => e.name)
        = (indexReference file).map Prod.fst := by
      rw [List.map_map]
      exact List.map_congr_left (fun p hp => (hkeys p hp).symm)
    rw [hmm]
    exact hnd
  have hsn : ((sortByOffset ((indexReference file).map Prod.snd)).map
      (fun e => e.name)).Nodup := ((hperm.map _).nodup_iff).mpr hvn
  rw [find?_name_perm _ _ hperm hsn]
  rw [← mapFind?_map_pair]
  rw [idx_eq_map_pair (indexReference file) hkeys]

theorem roundtrip_preserves_index_witness :
    (∀ p ∈ indexReference demoFile, '\t' ∉ (p.2).name) ∧
    ∃ m, readIndexFile (writeIndexFile (indexReference demoFile)) = .ok m ∧
      ∀ name, mapFind? m name = mapFind? (indexReference demoFile) name :=
  ⟨by decide, roundtrip_preserves_index demoFile (by decide)⟩

/-- C4 counterexample: a record whose name contains a tab.  The scan
produces its entry, but the written index line then splits into six fields,
so parsing the written file aborts with a `FormatError` instead of
reproducing the index. -/
theorem roundtrip_tab_name_fails :
    mapFind? (indexReference tabNameFile) "a\tb".toList
      = some ⟨"a\tb".toList, 2, 5, 2, 3⟩ ∧
    readIndexFile (writeIndexFile (indexReference tabNameFile))
      = .error (.formatError 1) := by
  refine ⟨by decide, by decide⟩

theorem lineOk_spec (l : Chars) (h : lineOk l = true) :
    ∃ f0 f1 f2 f3 f4, splitTabs l = [f0, f1, f2, f3, f4] ∧
      (parseInt? f1).isSome = true ∧ (parseInt? f2).isSome = true ∧
      (parseInt? f3).isSome = true ∧ (parseInt? f4).isSome = true := by
  unfold lineOk at h
  rcases hsp : splitTabs l with _ | ⟨f0, _ | ⟨f1, _ | ⟨f2, _ | ⟨f3, _ | ⟨f4, _ | ⟨x, r⟩⟩⟩⟩⟩⟩ <;>
    rw [hsp] at h
  · cases h
  · cases h
  · cases h
  · cases h
  · cases h
  · simp only [Bool.and_eq_true] at h
    exact ⟨f0, f1, f2, f3, f4, rfl, h.1.1.1, h.1.1.2, h.1.2, h.2⟩
  · cases h

theorem readIndexLines_bad_fails (lines : List Chars) :
    ∀ (k : Nat) (acc : FastaIndex),
      (∃ l ∈ lines, (splitTabs l).length ≠ 5) →
      ∃ err, readIndexLines k acc lines = .error err := by
  induction lines with
  | nil =>
    intro k acc ⟨l, hl, _⟩
    cases hl
  | cons line rest ih =>
    intro k acc ⟨l, hl, hbad⟩
    have hred : readIndexLines k acc (line :: rest)
        = (match splitTabs line with
           | [f0, f1, f2, f3, f4] =>
             match parseInt? f1, parseInt? f2, parseInt? f3, parseInt? f4 with
             | some len, some off, some bl, some ll =>
               readIndexLines (k + 1) (mapInsert acc f0 ⟨f0, len, off, bl, ll⟩) rest
             | _, _, _, _ => .error .castError
           | _ => .error (.formatError k)) := rfl
    rcases hsp : splitTabs line with _ | ⟨f0, _ | ⟨f1, _ | ⟨f2, _ | ⟨f3, _ | ⟨f4, _ | ⟨x, r⟩⟩⟩⟩⟩⟩
    · exact ⟨_, by rw [hred, hsp]⟩
    · exact ⟨_, by rw [hred, hsp]⟩
    · exact ⟨_, by rw [hred, hsp]⟩
    · exact ⟨_, by rw [hred, hsp]⟩
    · exact ⟨_, by rw [hred, hsp]⟩
    · -- five fields: the bad line is in the tail, or a cast fails first
      have hlrest : l ∈ rest := by
        rcases List.mem_cons.mp hl with h | h
        · rw [h, hsp] at hbad
          simp at hbad
        · exact h
      rw [hred, hsp]
      show ∃ err,
        (match parseInt? f1, parseInt? f2, parseInt? f3, parseInt? f4 with
         | some len, some off, some bl, some ll =>
           readIndexLines (k + 1) (mapInsert acc f0 ⟨f0, len, off, bl, ll⟩) rest
         | _, _, _, _ => (.error .castError : Except CppError FastaIndex))
        = .error err
      rcases h1 : parseInt? f1 with _ | v1
      · exact ⟨_, rfl⟩
      rcases h2 : parseInt? f2 with _ | v2
      · exact ⟨_, rfl⟩
      rcases h3 : parseInt? f3 with _ | v3
      · exact ⟨_, rfl⟩
      rcases h4 : parseInt? f4 with _ | v4
      · exact ⟨_, rfl⟩
      obtain ⟨err, herr⟩ :=
        ih (k + 1) (mapInsert acc f0 ⟨f0, v1, v2, v3, v4⟩) ⟨l, hlrest, hbad⟩
      exact ⟨err, herr⟩
    · exact ⟨_, by rw [hred, hsp]⟩

theorem readIndexLines_first_bad (lines : List Chars) :
    ∀ (k : Nat) (acc : FastaIndex) (n : Nat) (l : Chars),
      lines.get? n = some l → (splitTabs l).length ≠ 5 →
      (∀ i li, i < n → lines.get? i = some li → lineOk li = true) →
      readIndexLines k acc lines = .error (.formatError (k + n)) := by
  induction lines with
  | nil =>
    intro k acc n l hget _ _
    cases hget
  | cons line rest ih =>
    intro k acc n l hget hbad hpfx
    have hred : readIndexLines k acc (line :: rest)
        = (match splitTabs line with
           | [f0, f1, f2, f3, f4] =>
             match parseInt? f1, parseInt? f2, parseInt? f3, parseInt? f4 with
             | some len, some off, some bl, some ll =>
               readIndexLines (k + 1) (mapInsert acc f0 ⟨f0, len, off, bl, ll⟩) rest
             | _, _, _, _ => .error .castError
           | _ => .error (.formatError k)) := rfl
    cases n with
    | zero =>
      have hll : line = l := by
        rw [show (line :: rest).get? 0 = some line from rfl] at hget
        exact Option.some.inj hget
      subst hll
      rcases hsp : splitTabs line with _ | ⟨f0, _ | ⟨f1, _ | ⟨f2, _ | ⟨f3, _ | ⟨f4, _ | ⟨x, r⟩⟩⟩⟩⟩⟩
      · rw [hred, hsp]
        rfl
      · rw [hred, hsp]
        rfl
      · rw [hred, hsp]
        rfl
      · rw [hred, hsp]
        rfl
      · rw [hred, hsp]
        rfl
      · rw [hsp] at hbad
        simp at hbad
      · rw [hred, hsp]
        rfl
    | succ n' =>
      have hok : lineOk line = true := hpfx 0 line (Nat.succ_pos n') rfl
      obtain ⟨f0, f1, f2, f3, f4, hsp, hi1, hi2, hi3, hi4⟩ := lineOk_spec line hok
      obtain ⟨v1, hv1⟩ := Option.isSome_iff_exists.mp hi1
      obtain ⟨v2, hv2⟩ := Option.isSome_iff_exists.mp hi2
      obtain ⟨v3, hv3⟩ := Option.isSome_iff_exists.mp hi3
      obtain ⟨v4, hv4⟩ := Option.isSome_iff_exists.mp hi4
      have hget' : rest.get? n' = some l := hget
      have hpfx' : ∀ i li, i < n' → rest.get? i = some li → lineOk li = true :=
        fun i li hi hgi => hpfx (i + 1) li (by omega) hgi
      have hstep := ih (k + 1) (mapInsert acc f0 ⟨f0, v1, v2, v3, v4⟩) n' l hget' hbad hpfx'
      rw [hred, hsp]
      show (match parseInt? f1, parseInt? f2, parseInt? f3, parseInt? f4 with
            | some len, some off, some bl, some ll =>
              readIndexLines (k + 1) (mapInsert acc f0 ⟨f0, len, off, bl, ll⟩) rest
            | _, _, _, _ => (.error .castError : Except CppError FastaIndex))
          = .error (.formatError (k + (n' + 1)))
      rw [hv1, hv2, hv3, hv4]
      rw [show k + (n' + 1) = (k + 1) + n' by omega]
      exact hstep

/-- C5 (amended): a persisted index file with a line that does not split on
tabs into exactly 5 fields never loads: `readIndexFile` returns an error,
so no index — partial or otherwise — is produced.  When every line before
the first bad-count line is well formed (5 fields, numeric fields parse),
the error is a `FormatError` carrying that line's 1-based number; a
preceding 5-field line whose numeric field `lexical_cast` rejects aborts
the load earlier with a cast failure instead. -/
theorem readIndexFile_malformed_fails (file : Chars)
    (hbad : ∃ l ∈ splitLines file, (splitTabs l).length ≠ 5) :
    (∃ err, readIndexFile file = .error err) ∧
    (∀ n l, (splitLines file).get? n = some l → (splitTabs l).length ≠ 5 →
      (∀ i li, i < n → (splitLines file).get? i = some li → lineOk li = true) →
      readIndexFile file = .error (.formatError (n + 1))) := by
  constructor
  · obtain ⟨l, hl, h5⟩ := hbad
    exact readIndexLines_bad_fails (splitLines file) 1 [] ⟨l, hl, h5⟩
  · intro n l hget h5 hpfx
    have hmain := readIndexLines_first_bad (splitLines file) 1 [] n l hget h5 hpfx
    rw [show 1 + n = n + 1 by omega] at hmain
    exact hmain

theorem readIndexFile_malformed_fails_witness :
    (∃ l ∈ splitLines "x\n".toList, (splitTabs l).length ≠ 5) ∧
    readIndexFile "x\n".toList = .error (.formatError 1) :=
  ⟨⟨"x".toList, by decide, by decide⟩,
    (readIndexFile_malformed_fails "x\n".toList ⟨"x".toList, by decide, by decide⟩).2
      0 "x".toList (by decide) (by decide) (fun i li h _ => absurd h (by omega))⟩

/-- C5 counterexample: the first line of `castErrorFile` has exactly 5
fields but its second field `"x"` is not numeric, so `lexical_cast` throws
before the single-field second line is reached: the load fails with a cast
failure, not with a `FormatError` naming the malformed line. -/
theorem readIndexFile_cast_preempts_format :
    (splitLines castErrorFile).get? 1 = some "z".toList ∧
    (splitTabs "z".toList).length = 1 ∧
    readIndexFile castErrorFile = .error .castError ∧
    (Except.error .castError : Except CppError FastaIndex) ≠ .error (.formatError 2) := by
  refine ⟨by decide, by decide, by decide, by decide⟩
